import Mathlib

/-!
Verification of the chessmate search-and-evaluation core
(`src/chessmate/transpositions.py` and its contracts) against the
repository specification.

The transposition-table module is embedded directly from the source.
Helper modules that the source imports but that are not part of the
sources at hand (`utils.get_piece_at`, `constants.misc.PIECE_INDEXING`,
`analysis.StandardEvaluation`, `utils.get_square_at_position`) are
modelled from the specification; each such definition carries a doc
comment starting with `Modelled from the spec:`.

Machine integers: Python integers are unbounded, so hashes and scores
are `Nat` / `Int` with no wrap-around.  Python list indexing raises
`IndexError` out of bounds; we model it with `Option`.
-/

/-- Modelled from the spec: the six chess piece kinds
("12 piece-type slots: 6 kinds x 2 colors"). -/
inductive PieceKind : Type
  | pawn | knight | bishop | rook | queen | king
deriving DecidableEq, Repr

/-- Modelled from the spec: a piece is a (piece-kind, color) pair;
`white = true` means a White piece (uppercase symbol in the source). -/
structure Piece : Type where
  kind : PieceKind
  white : Bool
deriving DecidableEq, Repr

/-- Modelled from the spec: a board position, viewed through the
piece-occupancy query the core uses — each of the 64 addressable squares
is either empty or occupied by a piece.  Square index is the canonical
`chess` index: `square = rank * 8 + file`. -/
abbrev Board : Type := Nat → Option Piece

/-- Modelled from the spec: `piece_at(position, square)` returns the piece
occupying the square, or an explicit empty sentinel (`none`) when the
square is unoccupied — a query, never an exception. -/
def get_piece_at (board : Board) (position : Nat) : Option Piece :=
  board position

/-- Modelled from the spec: `PIECE_INDEXING` maps each of the 12
piece types (6 kinds x 2 colors) to its slot in `0..11` of the key
array's innermost dimension. -/
def PIECE_INDEXING (piece : Piece) : Nat :=
  (match piece.kind with
    | .pawn => 0
    | .knight => 1
    | .bishop => 2
    | .rook => 3
    | .queen => 4
    | .king => 5) + (if piece.white then 0 else 6)

/-- The Zobrist key array: a 3-dimensional list of integers indexed by
[rank][file][piece-type-index], as in the source's `hash_table`. -/
abbrev HashTable : Type := List (List (List Nat))

/-- Python list indexing `hash_table[rank][_file][piece_idx]`:
`none` models an `IndexError`. -/
def tableKey (hash_table : HashTable) (rank file piece_idx : Nat) : Option Nat := do
  let row ← hash_table[rank]?
  let cell ← row[file]?
  cell[piece_idx]?

/-- One iteration of the `for square in chess.SQUARES` loop of
`zobrist_hash_function`: if a piece is on the square, XOR the key for
(rank, file, piece index) into the accumulator; otherwise leave the
accumulator unchanged.  `none` models an uncaught `IndexError`. -/
def zobristStep (board : Board) (hash_table : HashTable)
    (acc : Nat) (square : Nat) : Option Nat :=
  match get_piece_at board square with
  | none => some acc
  | some piece =>
      match tableKey hash_table (square / 8) (square % 8) (PIECE_INDEXING piece) with
      | none => none
      | some key => some (Nat.xor acc key)

/-- Embedding of `zobrist_hash_function` (transpositions.py lines 12-32):
starting from `_hash = 0`, fold `zobristStep` over the 64 squares
`chess.SQUARES = range(64)`, with `chess.square_rank s = s / 8` and
`chess.square_file s = s % 8`. -/
def zobrist_hash_function (board : Board) (hash_table : HashTable) : Option Nat :=
  (List.range 64).foldlM (zobristStep board hash_table) 0

/-- A key array is well formed when it has shape 8 x 8 x 12. -/
def WellFormedTable (hash_table : HashTable) : Prop :=
  hash_table.length = 8 ∧
    ∀ row ∈ hash_table, row.length = 8 ∧ ∀ cell ∈ row, cell.length = 12

/-- The spec's description of the hash ("the XOR, over exactly the
occupied squares of the 64 squares, of the key indexed by
[rank][file][piece-type-index], starting from an accumulator of 0"):
collect the key of every occupied square and XOR them together. -/
def zobristXorOfOccupied (board : Board) (hash_table : HashTable) : Nat :=
  ((List.range 64).filterMap (fun square =>
      (board square).map (fun piece =>
        ((hash_table.getD (square / 8) []).getD (square % 8) []).getD
          (PIECE_INDEXING piece) 0))).foldl Nat.xor 0

/-- The board with no occupied squares. -/
def emptyBoard : Board := fun _ => none

theorem PIECE_INDEXING_lt (piece : Piece) : PIECE_INDEXING piece < 12 := by
  unfold PIECE_INDEXING
  cases piece with
  | mk kind white =>
      cases kind <;> cases white <;> simp

theorem zobristStep_none (board : Board) (hash_table : HashTable)
    (acc square : Nat) (h : board square = none) :
    zobristStep board hash_table acc square = some acc := by
  simp [zobristStep, get_piece_at, h]

theorem tableKey_eq_getD (t : HashTable) (hwf : WellFormedTable t)
    (rank file idx : Nat) (hr : rank < 8) (hf : file < 8) (hi : idx < 12) :
    tableKey t rank file idx = some (((t.getD rank []).getD file []).getD idx 0) := by
  obtain ⟨hlen, hrows⟩ := hwf
  have hrank : rank < t.length := by omega
  have hrow := hrows (t[rank]) (List.getElem_mem hrank)
  have hfile : file < (t[rank]).length := by omega
  have hcell := (hrow.2 ((t[rank])[file]) (List.getElem_mem hfile))
  have hidx : idx < ((t[rank])[file]).length := by omega
  rw [tableKey]
  rw [List.getElem?_eq_getElem hrank]
  rw [List.getD_eq_getElem t [] hrank]
  simp only [Option.bind_eq_bind, Option.some_bind]
  rw [List.getElem?_eq_getElem hfile]
  rw [List.getD_eq_getElem (t[rank]) [] hfile]
  simp only [Option.some_bind]
  rw [List.getElem?_eq_getElem hidx]
  rw [List.getD_eq_getElem ((t[rank])[file]) 0 hidx]

theorem zobristStep_some (board : Board) (t : HashTable) (hwf : WellFormedTable t)
    (acc square : Nat) (piece : Piece) (hs : square < 64) (h : board square = some piece) :
    zobristStep board t acc square =
      some (Nat.xor acc (((t.getD (square / 8) []).getD (square % 8) []).getD
        (PIECE_INDEXING piece) 0)) := by
  have hk := tableKey_eq_getD t hwf (square / 8) (square % 8) (PIECE_INDEXING piece)
    (by omega) (by omega) (PIECE_INDEXING_lt piece)
  simp [zobristStep, get_piece_at, h, hk]

theorem zobrist_foldlM_eq (board : Board) (t : HashTable) (hwf : WellFormedTable t)
    (squares : List Nat) (hsq : ∀ s ∈ squares, s < 64) (acc : Nat) :
    squares.foldlM (zobristStep board t) acc =
      some ((squares.filterMap (fun square =>
        (board square).map (fun piece =>
          ((t.getD (square / 8) []).getD (square % 8) []).getD
            (PIECE_INDEXING piece) 0))).foldl Nat.xor acc) := by
  induction squares generalizing acc with
  | nil => rfl
  | cons s rest ih =>
      have hs : s < 64 := hsq s (List.mem_cons_self s rest)
      have hrest : ∀ x ∈ rest, x < 64 := fun x hx => hsq x (List.mem_cons_of_mem s hx)
      rw [List.foldlM_cons]
      cases hb : board s with
      | none =>
          rw [zobristStep_none board t acc s hb]
          simp only [Option.bind_eq_bind, Option.some_bind, List.filterMap_cons, hb,
            Option.map_none]
          exact ih hrest acc
      | some piece =>
          rw [zobristStep_some board t hwf acc s piece hs hb]
          simp only [Option.bind_eq_bind, Option.some_bind, List.filterMap_cons, hb,
            Option.map_some, List.foldl_cons]
          exact ih hrest _

/-- Modelled from the spec: the fixed per-piece-kind material values.
The spec fixes the exact magnitudes as "a contract consumed by tests, not
free to renumber"; the test suite in src pins king = 99999 (missing White
king evaluates to -99999), queen - bishop = 650 and knight = 350, so the
conventional value set (pawn 100, knight 350, bishop 350, rook 525,
queen 1000, king 99999) is used. -/
def piece_value : PieceKind → Int
  | .pawn => 100
  | .knight => 350
  | .bishop => 350
  | .rook => 525
  | .queen => 1000
  | .king => 99999

/-- Modelled from the spec: `StandardEvaluation.evaluate` (Material
Evaluation) sums fixed per-piece-kind values for every occupied square,
sign per color (positive for White, negative for Black). -/
def StandardEvaluation_evaluate (board : Board) : Int :=
  (List.range 64).foldl (fun acc square =>
    match board square with
    | none => acc
    | some piece =>
        acc + (if piece.white then piece_value piece.kind
               else -piece_value piece.kind)) 0

/-- Placement of the back rank (rank 0 for White, rank 7 for Black) by
file, in the standard starting position. -/
def backRankKind : Nat → Option PieceKind
  | 0 => some .rook
  | 1 => some .knight
  | 2 => some .bishop
  | 3 => some .queen
  | 4 => some .king
  | 5 => some .bishop
  | 6 => some .knight
  | 7 => some .rook
  | _ => none

/-- The standard chess starting position as a `Board`
(square = rank * 8 + file, White on ranks 0-1, Black on ranks 6-7). -/
def startingBoard : Board := fun square =>
  if square < 64 then
    let rank := square / 8
    let file := square % 8
    if rank = 0 then (backRankKind file).map (fun k => ⟨k, true⟩)
    else if rank = 1 then some ⟨.pawn, true⟩
    else if rank = 6 then some ⟨.pawn, false⟩
    else if rank = 7 then (backRankKind file).map (fun k => ⟨k, false⟩)
    else none
  else none

/-- `board.remove_piece_at(square)`: the board with that square emptied. -/
def remove_piece_at (board : Board) (square : Nat) : Board :=
  fun s => if s = square then none else board s

/-- Embedding of the `TranspositionTable` state (transpositions.py lines
35-94): the hash function passed to the constructor, the key array
(`_hash_table`), the evaluation function, and the score map
`stored_values` (a Python dict, modelled as a partial map). -/
structure TranspositionTable : Type where
  hash_function : Board → HashTable → Option Nat
  hash_table : HashTable
  evaluation_function : Board → Int
  stored_values : Nat → Option Int

/-- Embedding of `TranspositionTable.__init__` (lines 52-62): stores the
given hash function, generates the 8 x 8 x 12 key array by the triple
list comprehension over `random.randint(1, 2 ** 64 - 1)` (the `randint`
argument is the oracle for the successive calls of the random generator,
in evaluation order: `k` outermost, then `j`, then `i`), fixes the
evaluation function to `StandardEvaluation`, and starts with an empty
`stored_values` dict.  Note the source constructor takes no
evaluation-function parameter. -/
def TranspositionTable.init (hash_function : Board → HashTable → Option Nat)
    (randint : Nat → Nat) : TranspositionTable where
  hash_function := hash_function
  hash_table :=
    (List.range 8).map (fun k =>
      (List.range 8).map (fun j =>
        (List.range 12).map (fun i => randint ((k * 8 + j) * 12 + i))))
  evaluation_function := StandardEvaluation_evaluate
  stored_values := fun _ => none

/-- Modelled from the spec: the constructor as the spec words it,
`new(hash_function, evaluation_function = StandardEvaluation)` — same
key-array allocation and empty score map, but with the evaluation
function as a parameter.  Used only to compare against the source
constructor `TranspositionTable.init`. -/
def TranspositionTable.initSpec (hash_function : Board → HashTable → Option Nat)
    (evaluation_function : Board → Int) (randint : Nat → Nat) : TranspositionTable where
  hash_function := hash_function
  hash_table :=
    (List.range 8).map (fun k =>
      (List.range 8).map (fun j =>
        (List.range 12).map (fun i => randint ((k * 8 + j) * 12 + i))))
  evaluation_function := evaluation_function
  stored_values := fun _ => none

/-- Embedding of the `hash_table` property setter (lines 75-83): replaces
`_hash_table`, touching nothing else. -/
def TranspositionTable.set_hash_table (T : TranspositionTable)
    (new_hash_table : HashTable) : TranspositionTable :=
  { T with hash_table := new_hash_table }

/-- Embedding of `TranspositionTable.hash_current_board` (lines 85-94):
`hash_ = self.hash_function(board, self._hash_table)`, then
`self.stored_values[hash_] = self.evaluation_function().evaluate(board)`.
`none` propagates a failure of the hash function (e.g. an `IndexError`
on a malformed key array). -/
def TranspositionTable.hash_current_board (T : TranspositionTable)
    (board : Board) : Option TranspositionTable :=
  match T.hash_function board T.hash_table with
  | none => none
  | some hash_ =>
      some { T with stored_values := fun key =>
               if key = hash_ then some (T.evaluation_function board)
               else T.stored_values key }

/-- A concrete well-formed key array with every key equal to 1, used as
the witness key array. -/
def oneTable : HashTable :=
  List.replicate 8 (List.replicate 8 (List.replicate 12 1))

/-- A concrete board with a single White pawn on square a1, used as a
witness board. -/
def onePawnBoard : Board := fun square =>
  if square = 0 then some ⟨.pawn, true⟩ else none

/-- C1: for every board and every well-formed 8 x 8 x 12 key array,
`zobrist_hash_function` returns (without error) exactly the XOR, over
the occupied squares of the 64 squares, of the key indexed by
[rank][file][piece-type-index], starting from an accumulator of 0;
empty squares contribute nothing. -/
theorem zobrist_hash_is_xor_of_occupied_keys (board : Board) (t : HashTable)
    (hwf : WellFormedTable t) :
    zobrist_hash_function board t = some (zobristXorOfOccupied board t) :=
  zobrist_foldlM_eq board t hwf (List.range 64)
    (fun _ hs => List.mem_range.mp hs) 0

theorem oneTable_wf : WellFormedTable oneTable := by
  unfold WellFormedTable oneTable
  refine ⟨rfl, ?_⟩
  intro row hrow
  rw [List.eq_of_mem_replicate hrow]
  refine ⟨rfl, ?_⟩
  intro cell hcell
  rw [List.eq_of_mem_replicate hcell]
  exact rfl

/-- Witness for C1 at a concrete board and key array. -/
theorem zobrist_hash_is_xor_of_occupied_keys_witness :
    WellFormedTable oneTable ∧
      zobrist_hash_function onePawnBoard oneTable =
        some (zobristXorOfOccupied onePawnBoard oneTable) :=
  ⟨oneTable_wf, zobrist_hash_is_xor_of_occupied_keys onePawnBoard oneTable oneTable_wf⟩

/-- C3: the Zobrist hash function is deterministic — two invocations on
the same unchanged board with the same key array return the same
integer. -/
theorem zobrist_hash_deterministic (board1 board2 : Board) (t1 t2 : HashTable)
    (hb : board1 = board2) (ht : t1 = t2) :
    zobrist_hash_function board1 t1 = zobrist_hash_function board2 t2 := by
  rw [hb, ht]

/-- Witness for C3 at a concrete board and key array. -/
theorem zobrist_hash_deterministic_witness :
    onePawnBoard = onePawnBoard ∧ oneTable = oneTable ∧
      zobrist_hash_function onePawnBoard oneTable =
        zobrist_hash_function onePawnBoard oneTable :=
  ⟨rfl, rfl, zobrist_hash_deterministic onePawnBoard onePawnBoard oneTable oneTable rfl rfl⟩

/-- C10: for every key array (well formed or not), the Zobrist hash of
the empty board is exactly `0`: the accumulator starts at 0 and no
square contributes a key. -/
theorem zobrist_hash_empty_board (t : HashTable) :
    zobrist_hash_function emptyBoard t = some 0 := by
  have h : ∀ (l : List Nat) (acc : Nat),
      l.foldlM (zobristStep emptyBoard t) acc = some acc := by
    intro l
    induction l with
    | nil => intro acc; rfl
    | cons s rest ih =>
        intro acc
        rw [List.foldlM_cons, zobristStep_none emptyBoard t acc s rfl]
        simpa using ih acc
  exact h (List.range 64) 0

/-- C2: after `hash_current_board` records a board, looking the board's
hash up in `stored_values` returns exactly the score the table's
evaluation function computes directly on that board. -/
theorem record_then_lookup_roundtrip (T T2 : TranspositionTable) (board : Board)
    (hash_ : Nat) (hh : T.hash_function board T.hash_table = some hash_)
    (hrec : T.hash_current_board board = some T2) :
    T2.stored_values hash_ = some (T.evaluation_function board) := by
  rw [TranspositionTable.hash_current_board, hh] at hrec
  cases hrec
  simp

/-- A concrete transposition table built with the source constructor,
the Zobrist hash function, and a constant random oracle. -/
def witnessTable : TranspositionTable :=
  TranspositionTable.init zobrist_hash_function (fun _ => 1)

/-- The table `witnessTable` after recording the empty board (hash 0). -/
def witnessRecorded : TranspositionTable :=
  { witnessTable with stored_values := fun key =>
      if key = 0 then some (witnessTable.evaluation_function emptyBoard)
      else witnessTable.stored_values key }

/-- Witness for C2: record the empty board in a table built with the
Zobrist hash over a concrete key array, then look its hash (0) up. -/
theorem record_then_lookup_roundtrip_witness :
    witnessTable.hash_function emptyBoard witnessTable.hash_table = some 0 ∧
      witnessTable.hash_current_board emptyBoard = some witnessRecorded ∧
      witnessRecorded.stored_values 0 =
        some (witnessTable.evaluation_function emptyBoard) := by
  have hh : witnessTable.hash_function emptyBoard witnessTable.hash_table = some 0 :=
    zobrist_hash_empty_board witnessTable.hash_table
  have hrec : witnessTable.hash_current_board emptyBoard = some witnessRecorded := by
    rw [TranspositionTable.hash_current_board, hh]
    rfl
  exact ⟨hh, hrec,
    record_then_lookup_roundtrip witnessTable witnessRecorded emptyBoard 0 hh hrec⟩

/-- C5: `hash_current_board` computes the board's hash with the table's
hash function and key array, evaluates the board with the table's
evaluation function, and stores hash -> score in `stored_values`,
overwriting any prior entry under that hash (last-write-wins) and
leaving every other entry and every other field unchanged. -/
theorem record_stores_hash_to_score (T : TranspositionTable) (board : Board)
    (hash_ : Nat) (hh : T.hash_function board T.hash_table = some hash_) :
    ∃ T2, T.hash_current_board board = some T2 ∧
      T2.stored_values hash_ = some (T.evaluation_function board) ∧
      (∀ key, key ≠ hash_ → T2.stored_values key = T.stored_values key) ∧
      T2.hash_function = T.hash_function ∧
      T2.hash_table = T.hash_table ∧
      T2.evaluation_function = T.evaluation_function := by
  refine ⟨{ T with stored_values := fun key =>
      if key = hash_ then some (T.evaluation_function board)
      else T.stored_values key }, ?_, ?_, ?_, rfl, rfl, rfl⟩
  · rw [TranspositionTable.hash_current_board, hh]
  · simp
  · intro key hk
    simp [hk]

/-- Witness for C5: record the empty board in the concrete table. -/
theorem record_stores_hash_to_score_witness :
    witnessTable.hash_function emptyBoard witnessTable.hash_table = some 0 ∧
      (∃ T2, witnessTable.hash_current_board emptyBoard = some T2 ∧
        T2.stored_values 0 = some (witnessTable.evaluation_function emptyBoard) ∧
        (∀ key, key ≠ 0 → T2.stored_values key = witnessTable.stored_values key) ∧
        T2.hash_function = witnessTable.hash_function ∧
        T2.hash_table = witnessTable.hash_table ∧
        T2.evaluation_function = witnessTable.evaluation_function) :=
  ⟨zobrist_hash_empty_board witnessTable.hash_table,
    record_stores_hash_to_score witnessTable emptyBoard 0
      (zobrist_hash_empty_board witnessTable.hash_table)⟩

/-- C6: the `hash_table` setter replaces only the key array — the score
map, hash function and evaluation function are untouched (old entries
remain under their old hashes) — and every subsequent hash computation
of `hash_current_board` uses the new key array. -/
theorem set_hash_table_frame (T : TranspositionTable) (new_hash_table : HashTable) :
    (T.set_hash_table new_hash_table).hash_table = new_hash_table ∧
      (T.set_hash_table new_hash_table).stored_values = T.stored_values ∧
      (T.set_hash_table new_hash_table).hash_function = T.hash_function ∧
      (T.set_hash_table new_hash_table).evaluation_function = T.evaluation_function ∧
      ∀ board, (T.set_hash_table new_hash_table).hash_current_board board =
        Option.map (fun hash_ => { T with
            hash_table := new_hash_table,
            stored_values := fun key =>
              if key = hash_ then some (T.evaluation_function board)
              else T.stored_values key })
          (T.hash_function board new_hash_table) := by
  refine ⟨rfl, rfl, rfl, rfl, ?_⟩
  intro board
  cases h : T.hash_function board new_hash_table with
  | none =>
      simp [TranspositionTable.hash_current_board, TranspositionTable.set_hash_table, h]
  | some hash_ =>
      simp [TranspositionTable.hash_current_board, TranspositionTable.set_hash_table, h]

/-- C7: for every board and every well-formed 8 x 8 x 12 key array, the
Zobrist hash and the record operation complete without error — every
index used (rank in 0..7, file in 0..7, piece index in 0..11) is in
bounds, so the failure branch is unreachable. -/
theorem zobrist_and_record_no_error (board : Board) (t : HashTable)
    (T : TranspositionTable) (hwf : WellFormedTable t)
    (hT : T.hash_function = zobrist_hash_function) (hTwf : WellFormedTable T.hash_table) :
    (zobrist_hash_function board t).isSome = true ∧
      (T.hash_current_board board).isSome = true := by
  constructor
  · rw [zobrist_hash_is_xor_of_occupied_keys board t hwf]
    rfl
  · rw [TranspositionTable.hash_current_board, hT,
      zobrist_hash_is_xor_of_occupied_keys board T.hash_table hTwf]
    rfl

/-- Witness for C7 at a concrete board, key array and table. -/
theorem zobrist_and_record_no_error_witness :
    WellFormedTable oneTable ∧
      witnessTable.hash_function = zobrist_hash_function ∧
      WellFormedTable witnessTable.hash_table ∧
      (zobrist_hash_function onePawnBoard oneTable).isSome = true ∧
      (witnessTable.hash_current_board onePawnBoard).isSome = true := by
  have hwit : WellFormedTable witnessTable.hash_table := by
    unfold WellFormedTable witnessTable TranspositionTable.init
    refine ⟨by simp, ?_⟩
    intro row hrow
    simp only [List.mem_map, List.mem_range] at hrow
    obtain ⟨k, _, hk⟩ := hrow
    subst hk
    refine ⟨by simp, ?_⟩
    intro cell hcell
    simp only [List.mem_map, List.mem_range] at hcell
    obtain ⟨j, _, hj⟩ := hcell
    subst hj
    simp
  exact ⟨oneTable_wf, rfl, hwit,
    (zobrist_and_record_no_error onePawnBoard oneTable witnessTable
      oneTable_wf rfl hwit).1,
    (zobrist_and_record_no_error onePawnBoard oneTable witnessTable
      oneTable_wf rfl hwit).2⟩

/-- C4 counterexample: the source constructor (`__init__`, line 52) takes
no evaluation-function parameter — the spec-worded constructor
`initSpec`, given an evaluator other than StandardEvaluation, produces a
table the source constructor cannot: at the same concrete arguments the
two constructors disagree on `evaluation_function`. -/
theorem init_has_no_evaluator_parameter :
    (TranspositionTable.initSpec zobrist_hash_function (fun _ => (1 : Int))
        (fun _ => 1)).evaluation_function ≠
      (TranspositionTable.init zobrist_hash_function (fun _ => 1)).evaluation_function := by
  intro h
  have h0 := congrFun h emptyBoard
  have h1 : (TranspositionTable.initSpec zobrist_hash_function (fun _ => (1 : Int))
      (fun _ => 1)).evaluation_function emptyBoard = 1 := rfl
  have h2 : (TranspositionTable.init zobrist_hash_function
      (fun _ => 1)).evaluation_function emptyBoard = 0 := rfl
  rw [h1, h2] at h0
  exact absurd h0 (by decide)

theorem init_hash_table_wf (hash_function : Board → HashTable → Option Nat)
    (randint : Nat → Nat) :
    WellFormedTable (TranspositionTable.init hash_function randint).hash_table := by
  unfold WellFormedTable TranspositionTable.init
  refine ⟨by simp, ?_⟩
  intro row hrow
  simp only [List.mem_map, List.mem_range] at hrow
  obtain ⟨k, _, hk⟩ := hrow
  subst hk
  refine ⟨by simp, ?_⟩
  intro cell hcell
  simp only [List.mem_map, List.mem_range] at hcell
  obtain ⟨j, _, hj⟩ := hcell
  subst hj
  simp

/-- C4 amended: the constructor takes only a hash function (there is no
evaluation-function parameter; the evaluation function is always
StandardEvaluation) and allocates a fresh key array of shape 8 x 8 x 12
with every key drawn from `random.randint(1, 2 ** 64 - 1)` — hence in
the range 1..2^64-1 — together with an initially empty score map. -/
theorem init_builds_fresh_table (hash_function : Board → HashTable → Option Nat)
    (randint : Nat → Nat)
    (hr : ∀ i, 1 ≤ randint i ∧ randint i ≤ 2 ^ 64 - 1) :
    WellFormedTable (TranspositionTable.init hash_function randint).hash_table ∧
      (∀ row ∈ (TranspositionTable.init hash_function randint).hash_table,
        ∀ cell ∈ row, ∀ key ∈ cell, 1 ≤ key ∧ key ≤ 2 ^ 64 - 1) ∧
      (TranspositionTable.init hash_function randint).stored_values = (fun _ => none) ∧
      (TranspositionTable.init hash_function randint).evaluation_function =
        StandardEvaluation_evaluate ∧
      (TranspositionTable.init hash_function randint).hash_function = hash_function := by
  refine ⟨init_hash_table_wf hash_function randint, ?_, rfl, rfl, rfl⟩
  intro row hrow cell hcell key hkey
  simp only [TranspositionTable.init, List.mem_map, List.mem_range] at hrow
  obtain ⟨k, _, hk⟩ := hrow
  subst hk
  simp only [List.mem_map, List.mem_range] at hcell
  obtain ⟨j, _, hj⟩ := hcell
  subst hj
  simp only [List.mem_map, List.mem_range] at hkey
  obtain ⟨i, _, hi⟩ := hkey
  subst hi
  exact hr _

/-- Witness for C4 (amended) at a concrete random oracle. -/
theorem init_builds_fresh_table_witness :
    (∀ i : Nat, 1 ≤ (fun _ : Nat => 1) i ∧ (fun _ : Nat => 1) i ≤ 2 ^ 64 - 1) ∧
      (WellFormedTable (TranspositionTable.init zobrist_hash_function
          (fun _ => 1)).hash_table ∧
        (∀ row ∈ (TranspositionTable.init zobrist_hash_function
            (fun _ => 1)).hash_table,
          ∀ cell ∈ row, ∀ key ∈ cell, 1 ≤ key ∧ key ≤ 2 ^ 64 - 1) ∧
        (TranspositionTable.init zobrist_hash_function
            (fun _ => 1)).stored_values = (fun _ => none) ∧
        (TranspositionTable.init zobrist_hash_function
            (fun _ => 1)).evaluation_function = StandardEvaluation_evaluate ∧
        (TranspositionTable.init zobrist_hash_function
            (fun _ => 1)).hash_function = zobrist_hash_function) :=
  ⟨fun _ => ⟨Nat.le_refl 1, by norm_num⟩,
    init_builds_fresh_table zobrist_hash_function (fun _ => 1)
      (fun _ => ⟨Nat.le_refl 1, by norm_num⟩)⟩

/-- C9: Material Evaluation's fixed numeric contract, by exact equality:
0 on the unmodified starting position; -99999 after removing the White
king (square e1 = 4); -650 after removing one Black bishop (c8 = 58)
and the White queen (d1 = 3). -/
theorem standard_evaluation_contract :
    StandardEvaluation_evaluate startingBoard = 0 ∧
      StandardEvaluation_evaluate (remove_piece_at startingBoard 4) = -99999 ∧
      StandardEvaluation_evaluate
        (remove_piece_at (remove_piece_at startingBoard 58) 3) = -650 := by
  refine ⟨?_, ?_, ?_⟩ <;> decide

/-- Modelled from the spec: the error raised for a malformed square
reference (`InvalidSquareError`), never silently clamped. -/
inductive InvalidSquareError : Type
  | invalidSquare
deriving DecidableEq, Repr

/-- Modelled from the spec: the input of square resolution — either a
two-character algebraic string or an already-canonical square index
(an integer, so out-of-range values exist on both sides). -/
inductive SquareInput : Type
  | ofStr : String → SquareInput
  | ofIdx : Int → SquareInput

/-- Modelled from the spec: case-insensitive file letter, `a`-`h` or
`A`-`H`, to file number 0..7; `none` for any other character. -/
def char_file_index (c : Char) : Option Nat :=
  if 'a' ≤ c ∧ c ≤ 'h' then some (c.toNat - 'a'.toNat)
  else if 'A' ≤ c ∧ c ≤ 'H' then some (c.toNat - 'A'.toNat)
  else none

/-- Modelled from the spec: rank digit `1`-`8` to rank number 0..7;
`none` for any other character. -/
def char_rank_index (c : Char) : Option Nat :=
  if '1' ≤ c ∧ c ≤ '8' then some (c.toNat - '1'.toNat) else none

/-- Resolution of a character list as a two-character algebraic square
name: exactly two characters, file then rank, canonical index
`rank * 8 + file`; anything else is an `InvalidSquareError`. -/
def resolve_chars (cs : List Char) : Except InvalidSquareError Nat :=
  match cs with
  | [f, r] =>
      match char_file_index f, char_rank_index r with
      | some fi, some ri => .ok (ri * 8 + fi)
      | _, _ => .error .invalidSquare
  | _ => .error .invalidSquare

/-- Modelled from the spec: `get_square_at_position` (the spec's
`resolve_square`) accepts a two-character algebraic string
(case-insensitive) or an already-canonical square index and returns the
canonical index; it fails with `InvalidSquareError` for any string not
matching the `[a-h][1-8]` pattern (case-insensitive) and for any
out-of-range index. -/
def get_square_at_position : SquareInput → Except InvalidSquareError Nat
  | .ofStr s => resolve_chars s.toList
  | .ofIdx i => if 0 ≤ i ∧ i < 64 then .ok i.toNat else .error .invalidSquare

/-- The valid forms of a square reference: a two-character string whose
first character is a file letter in `a`-`h` (either case) and whose
second is a rank digit in `1`-`8`, or an index in `0..63`. -/
def ValidSquareInput : SquareInput → Prop
  | .ofStr s => ∃ f r, s.toList = [f, r] ∧
      (('a' ≤ f ∧ f ≤ 'h') ∨ ('A' ≤ f ∧ f ≤ 'H')) ∧ ('1' ≤ r ∧ r ≤ '8')
  | .ofIdx i => 0 ≤ i ∧ i < 64

theorem char_file_index_isSome (c : Char) :
    (char_file_index c).isSome = true ↔
      (('a' ≤ c ∧ c ≤ 'h') ∨ ('A' ≤ c ∧ c ≤ 'H')) := by
  unfold char_file_index
  by_cases h1 : 'a' ≤ c ∧ c ≤ 'h'
  · simp [h1]
  · by_cases h2 : 'A' ≤ c ∧ c ≤ 'H' <;> simp [h1, h2]

theorem char_rank_index_isSome (c : Char) :
    (char_rank_index c).isSome = true ↔ ('1' ≤ c ∧ c ≤ '8') := by
  unfold char_rank_index
  by_cases h : '1' ≤ c ∧ c ≤ '8' <;> simp [h]

theorem resolve_chars_error_iff (cs : List Char) :
    resolve_chars cs = .error .invalidSquare ↔
      ¬ ∃ f r, cs = [f, r] ∧
        (('a' ≤ f ∧ f ≤ 'h') ∨ ('A' ≤ f ∧ f ≤ 'H')) ∧ ('1' ≤ r ∧ r ≤ '8') := by
  match cs with
  | [] => simp [resolve_chars]
  | [f] => simp [resolve_chars]
  | f :: r :: x :: rest => simp [resolve_chars]
  | [f, r] =>
      constructor
      · intro herr
        rintro ⟨f2, r2, heq, hfc, hrc⟩
        simp only [List.cons.injEq, and_true] at heq
        obtain ⟨hf2, hr2⟩ := heq
        subst hf2
        subst hr2
        have hfs : (char_file_index f).isSome = true :=
          (char_file_index_isSome f).mpr hfc
        have hrs : (char_rank_index r).isSome = true :=
          (char_rank_index_isSome r).mpr hrc
        rw [resolve_chars] at herr
        cases h1 : char_file_index f with
        | none => rw [h1] at hfs; simp at hfs
        | some fi =>
            cases h2 : char_rank_index r with
            | none => rw [h2] at hrs; simp at hrs
            | some ri => rw [h1, h2] at herr; simp at herr
      · intro hnex
        rw [resolve_chars]
        cases h1 : char_file_index f with
        | none =>
            cases h2 : char_rank_index r with
            | none => rfl
            | some ri => rfl
        | some fi =>
            cases h2 : char_rank_index r with
            | none => rfl
            | some ri =>
                exfalso
                exact hnex ⟨f, r, rfl,
                  (char_file_index_isSome f).mp (by rw [h1]; rfl),
                  (char_rank_index_isSome r).mp (by rw [h2]; rfl)⟩

/-- C8: square resolution is case-insensitive and total on valid inputs
— "a2", "A2" and the canonical index 8 for a2 all resolve to 8 — and it
fails with `InvalidSquareError` if and only if the input is neither a
string matching `[a-h][1-8]` (case-insensitive) nor an index in
`0..63`. -/
theorem get_square_at_position_contract :
    get_square_at_position (.ofStr "a2") = .ok 8 ∧
      get_square_at_position (.ofStr "A2") = .ok 8 ∧
      get_square_at_position (.ofIdx 8) = .ok 8 ∧
      ∀ input, get_square_at_position input = .error .invalidSquare ↔
        ¬ ValidSquareInput input := by
  refine ⟨rfl, rfl, rfl, ?_⟩
  intro input
  cases input with
  | ofStr s => exact resolve_chars_error_iff s.toList
  | ofIdx i =>
      unfold get_square_at_position ValidSquareInput
      by_cases h : 0 ≤ i ∧ i < 64
      · simp [h]
      · simp [h]
